import Mathlib

/-!
Verification of the multipart-upload core of cape-frontend.

This file gives a shallow embedding, in Lean, of the upload orchestration
code in `src/lib/mpu.ts` and the streaming archive helpers in
`src/lib/stream.ts`, and proves (or refutes) the frozen claims about that
code.  Network effects are modelled by scripts: a part endpoint is a list of
`AttemptOutcome`s, the transport progress events of one attempt are a list
of byte counters, and the broker/complete/abort endpoints are boolean
failure flags.  All definitions follow the control flow of the source; the
only definition taken from the design document rather than the source is the
tar block serialization (`tarPack`), whose producer is the external
`tar-stream` library.
-/

namespace CapeFrontend

/-- One scripted outcome of a single `axios.put` for a part: either an HTTP
response with a status code and an optional lowercase `etag` header, or a
transport-level failure with no response at all (a network drop, which
`axios.isAxiosError(err) && !err.response` recognizes in the source). -/
inductive AttemptOutcome
| resp (status : Nat) (etag : Option String)
| netErr
deriving DecidableEq

/-- Function `shouldRetry` from mpu.ts: `status >= 500 || status == 429 || status == 408`. -/
def shouldRetry (status : Nat) : Bool :=
  decide (500 ≤ status) || status == 429 || status == 408

/-- Result of the per-part `while (true)` attempt loop of `doMultipartUpload`:
success carrying the etag header and the number of attempts made, a thrown
part error carrying the attempt count (the source wraps every failure in
`Part N upload failed after A attempt(s)`), or `pending` when the scripted
outcomes ran out (the real loop would be awaiting a further response). -/
inductive PartResult
| success (eTag : String) (attempts : Nat)
| failure (attempts : Nat)
| pending
deriving DecidableEq

/-- The `while (true)` attempt loop in `doMultipartUpload` (mpu.ts lines
322-392) for one part, with the cancellation signal not raised.  `attempt` is
the attempt counter before the `attempt += 1` at the top of the iteration.
A response with `200 <= status <= 300` succeeds when the `etag` header is a
string and otherwise throws (the thrown error is not an axios error, so the
catch block re-throws it as a part failure); a retryable status retries only
while `attempt < numRetries`; a network error retries while
`attempt <= numRetries`. -/
def uploadPartLoop (numRetries : Nat) : List AttemptOutcome → Nat → PartResult
| [], _ => .pending
| o :: rest, attempt =>
  match o with
  | .resp status etag =>
    if 200 ≤ status ∧ status ≤ 300 then
      match etag with
      | some t => .success t (attempt + 1)
      | none => .failure (attempt + 1)
    else if attempt + 1 < numRetries ∧ shouldRetry status = true then
      uploadPartLoop numRetries rest (attempt + 1)
    else .failure (attempt + 1)
  | .netErr =>
    if attempt + 1 ≤ numRetries then uploadPartLoop numRetries rest (attempt + 1)
    else .failure (attempt + 1)

/-- A presigned part URL entry as validated by `openMultipartUpload`
(`PartUrl` in mpu.ts).  `partNumber` is a JS number already coerced from a
string if needed; the validation there requires it to be a positive integer,
so it is modelled as `Int`. -/
structure PartUrl where
  partNumber : Int
  url : String
deriving DecidableEq

/-- The `items.sort((a, b) => a.partNumber - b.partNumber)` step at the end of
`openMultipartUpload`. -/
def sortByPartNumber (urls : List PartUrl) : List PartUrl :=
  urls.mergeSort fun a b => a.partNumber ≤ b.partNumber

/-- The body of the sanity-check `for` loop at the top of `doMultipartUpload`
(mpu.ts lines 301-309), unrolled from the expected part number `expected`:
`urls[i].partNumber === i + 1` must hold at every index, otherwise an error
is thrown before any PUT. -/
def checkUrlsFrom : List PartUrl → Int → Bool
| [], _ => true
| u :: rest, expected => u.partNumber == expected && checkUrlsFrom rest (expected + 1)

/-- The whole sanity check of `doMultipartUpload`: ascending part numbers
`1..urls.length` with no gap.  Returns `true` exactly when no error is
thrown. -/
def checkUrls (urls : List PartUrl) : Bool :=
  checkUrlsFrom urls 1

/-- The sequence `e, e+1, ..., e+n-1` of expected part numbers. -/
def intRange (e : Int) (n : Nat) : List Int :=
  (List.range n).map fun (i : Nat) => e + (i : Int)

/-- A part recorded by `doMultipartUpload` after a successful PUT
(`UploadedPart` in mpu.ts). -/
structure UploadedPart where
  partNumber : Int
  eTag : String
deriving DecidableEq

/-- The distinct errors the modelled coordinator can raise.  `partError`
carries the part number and the attempt count of the exhausted-retry /
fatal-part error message; `abortError` is a failure of the abort request
itself; `scriptEnded` stands for a run that consumed its whole outcome
script without finishing. -/
inductive UploadError
| urlCheckError
| partError (partNumber : Int) (attempts : Nat)
| missingUrlError (index : Nat)
| scriptEnded (partNumber : Int)
| openError
| completeError
| noPartsError
| abortError
deriving DecidableEq

/-- The cancellation signal, modelled by the chunk index from which it is
seen as raised: `some k` means the signal is raised after the first `k`
parts have been handled (so the `signal.aborted` check at the top of the
attempt loop reads `true` for every chunk index `≥ k`, and the post-transfer
check in `sendMultipartUpload` reads `true`). -/
def signalAborted (signalFrom : Option Nat) (index : Nat) : Bool :=
  match signalFrom with
  | none => false
  | some k => decide (k ≤ index)

/-- The `for (const { index, part } of iterateFileChunks(...))` loop of
`doMultipartUpload`, one outcome script per chunk.  Returns the accumulated
`uploaded` list (or the thrown error) together with the trace of PUT
attempts actually issued, as a list of part numbers.  When the signal is
aborted the attempt loop breaks before doing anything, and the chunk loop
moves on; when `urls[index]` does not exist the destructuring of `undefined`
throws. -/
def doPartsLoop (numRetries : Nat) (urls : List PartUrl) (signalFrom : Option Nat) :
    List (List AttemptOutcome) → Nat → Except UploadError (List UploadedPart) × List Int
| [], _ => (.ok [], [])
| script :: rest, index =>
  if signalAborted signalFrom index then
    doPartsLoop numRetries urls signalFrom rest (index + 1)
  else
    match urls.get? index with
    | none => (.error (.missingUrlError index), [])
    | some u =>
      match uploadPartLoop numRetries script 0 with
      | .success t a =>
        let next := doPartsLoop numRetries urls signalFrom rest (index + 1)
        (next.1.map fun parts => ⟨u.partNumber, t⟩ :: parts,
          List.replicate a u.partNumber ++ next.2)
      | .failure a => (.error (.partError u.partNumber a), List.replicate a u.partNumber)
      | .pending => (.error (.scriptEnded u.partNumber), List.replicate script.length u.partNumber)

/-- Function `doMultipartUpload` (mpu.ts lines 287-396): the URL sanity check followed
by the chunk loop.  The scripts list plays the role of the chunk sequence:
one scripted part endpoint per chunk of the file. -/
def doMultipartUpload (numRetries : Nat) (urls : List PartUrl)
    (scripts : List (List AttemptOutcome)) (signalFrom : Option Nat) :
    Except UploadError (List UploadedPart) × List Int :=
  if checkUrls urls then doPartsLoop numRetries urls signalFrom scripts 0
  else (.error .urlCheckError, [])

/-- Function `completeMultipartUpload` (mpu.ts lines 418-460): throws before any
network call when the part list is empty, otherwise posts the completion XML
once; a non-2xx completion response throws.  The parsed result body is
abstracted to the part list itself.  Returns the outcome and the number of
completion calls issued. -/
def completeMultipartUpload (parts : List UploadedPart) (completeFails : Bool) :
    Except UploadError (List UploadedPart) × Nat :=
  if parts.isEmpty then (.error .noPartsError, 0)
  else if completeFails then (.error .completeError, 1)
  else (.ok parts, 1)

/-- One scripted run of the coordinator after `createMultipartUpload` has
returned an upload id (the claims under verification all concern behaviour
after the session exists, and initiate failures propagate with no cleanup
per the source). -/
structure Script where
  numRetries : Nat
  urls : List PartUrl
  scripts : List (List AttemptOutcome)
  signalFrom : Option Nat
  openFails : Bool
  completeFails : Bool
  abortFails : Bool
deriving DecidableEq

/-- Trace of remote calls made by one run: the PUT attempts (part numbers in
order), the number of completion calls, and the number of abort calls. -/
structure Trace where
  puts : List Int
  completes : Nat
  aborts : Nat
deriving DecidableEq

/-- Function `sendMultipartUpload` (mpu.ts lines 119-131): open the part URLs, do the
transfer, and - only if the signal has not been raised - complete the
upload.  An `undefined` return (here `Option.none`) is the cancellation
outcome. -/
def sendMultipartUpload (s : Script) : Except UploadError (Option (List UploadedPart)) × Trace :=
  if s.openFails then (.error .openError, ⟨[], 0, 0⟩)
  else
    let r := doMultipartUpload s.numRetries s.urls s.scripts s.signalFrom
    match r.1 with
    | .error e => (.error e, ⟨r.2, 0, 0⟩)
    | .ok parts =>
      if s.signalFrom.isSome then (.ok none, ⟨r.2, 0, 0⟩)
      else
        match completeMultipartUpload parts s.completeFails with
        | (.ok res, c) => (.ok (some res), ⟨r.2, c, 0⟩)
        | (.error e, c) => (.error e, ⟨r.2, c, 0⟩)

/-- Function `multiPartUpload` (mpu.ts lines 54-66): create a session, try to send,
and on a thrown error `await abortMultipartUpload(...)` then `throw err`.
The abort call is not wrapped in any try/catch in the source, so when the
abort request itself rejects, that rejection - not the original error -
propagates out of the catch block. -/
def multiPartUpload (s : Script) : Except UploadError (Option (List UploadedPart)) × Trace :=
  let st := sendMultipartUpload s
  match st.1 with
  | .ok res => (.ok res, st.2)
  | .error e =>
    if s.abortFails then (.error .abortError, ⟨st.2.puts, st.2.completes, st.2.aborts + 1⟩)
    else (.error e, ⟨st.2.puts, st.2.completes, st.2.aborts + 1⟩)

/-- Progress accounting state of `doMultipartUpload`: `perLoaded` is the
per-part high-water mark declared once per chunk (`let perLoaded = 0` before
the attempt loop, mpu.ts line 319) and `bytesSent` is the session-wide
cumulative counter (line 314). -/
structure ProgressState where
  perLoaded : Nat
  bytesSent : Nat
deriving DecidableEq

/-- One invocation of the `onUploadProgress` callback (mpu.ts lines 335-350)
with transport counter `loaded`: `delta = loaded - perLoaded` and only a
positive delta is added to both counters, in which case the progress sink is
invoked with the new `bytesSent` (returned as `some`). -/
def onUploadProgress (st : ProgressState) (loaded : Nat) : ProgressState × Option Nat :=
  if st.perLoaded < loaded then
    let delta := loaded - st.perLoaded
    (⟨st.perLoaded + delta, st.bytesSent + delta⟩, some (st.bytesSent + delta))
  else (st, none)

/-- The progress events of one PUT attempt: the transport fires
`onUploadProgress` once per element of `loads`.  Returns the final state and
the list of `bytesSent` values reported to the sink. -/
def runAttempt (st : ProgressState) : List Nat → ProgressState × List Nat
| [] => (st, [])
| l :: rest =>
  let step := onUploadProgress st l
  let next := runAttempt step.1 rest
  (next.1, step.2.toList ++ next.2)

/-- The successive attempts of one part.  `perLoaded` is *not* reset between
attempts in the source (it is declared outside the `while (true)` loop), so
the state is threaded through unchanged. -/
def runPartAttempts (st : ProgressState) : List (List Nat) → ProgressState × List Nat
| [] => (st, [])
| a :: rest =>
  let step := runAttempt st a
  let next := runPartAttempts step.1 rest
  (next.1, step.2 ++ next.2)

/-- One part of the chunk loop: `perLoaded` starts at 0 for the part
(`let perLoaded = 0`), `bytesSent` carries over from the previous parts.
Returns the cumulative `bytesSent` after the part and the reports made. -/
def runPart (bytesSent : Nat) (attempts : List (List Nat)) : Nat × List Nat :=
  let st := runPartAttempts ⟨0, bytesSent⟩ attempts
  (st.1.bytesSent, st.2)

/-- One part of an upload as seen by the progress accounting: the size of its
chunk (`part.size`) and, per attempt, the `loaded` counters the transport
reported. -/
structure PartRun where
  size : Nat
  attempts : List (List Nat)
deriving DecidableEq

/-- The progress accounting of a whole transfer: parts in order, `bytesSent`
starting from `bytesSent0` (0 in the source).  Returns the final cumulative
`bytesSent` and the concatenated reports passed to the progress sink. -/
def runSession (bytesSent0 : Nat) : List PartRun → Nat × List Nat
| [] => (bytesSent0, [])
| p :: rest =>
  let step := runPart bytesSent0 p.attempts
  let next := runSession step.1 rest
  (next.1, step.2 ++ next.2)

/-- The value of `perLoaded` observed at the top of each attempt of one part
(just before the PUT of that attempt), starting from state `st`. -/
def attemptStarts (st : ProgressState) : List (List Nat) → List Nat
| [] => []
| a :: rest => st.perLoaded :: attemptStarts (runAttempt st a).1 rest

/-- One yielded element of `iterateFileChunks` (mpu.ts lines 491-514); the
source's `end` field is named `stop` here because `end` is a Lean keyword,
and the `part` blob is represented by its byte range. -/
structure FileChunk where
  index : Nat
  start : Nat
  stop : Nat
  isLast : Bool
deriving DecidableEq

/-- Function `iterateFileChunks` (mpu.ts lines 491-514) on a file of `fileSize` bytes:
`total = Math.ceil(file.size / chunkSize)` chunks with
`start = index * chunkSize`, `end = Math.min(start + chunkSize, file.size)`
and `isLast = end === file.size`; zero chunks for an empty file.  The source
throws a `RangeError` for a non-positive or non-finite `chunkSize`; the
model is only used under `0 < chunkSize`, where `Nat` ceiling division
`(fileSize + chunkSize - 1) / chunkSize` agrees with `Math.ceil`. -/
def iterateFileChunks (fileSize chunkSize : Nat) : List FileChunk :=
  if fileSize = 0 then []
  else
    (List.range ((fileSize + chunkSize - 1) / chunkSize)).map fun index =>
      let start := index * chunkSize
      let stop := min (start + chunkSize) fileSize
      ⟨index, start, stop, stop == fileSize⟩

/-- The inner `while (buffer.length >= chunkSize)` loop of `chunkStream`
(stream.ts lines 106-109): emit `chunkSize`-byte chunks off the front of the
buffer while it is long enough.  Returns the emitted chunks and the
remaining buffer.  The guard `0 < chunkSize` reflects that the source loop
would never terminate for `chunkSize = 0`; all callers pass a positive part
size. -/
def emitFull (chunkSize : Nat) (buffer : List Nat) : List (List Nat) × List Nat :=
  if h : 0 < chunkSize ∧ chunkSize ≤ buffer.length then
    let next := emitFull chunkSize (buffer.drop chunkSize)
    (buffer.take chunkSize :: next.1, next.2)
  else ([], buffer)
termination_by buffer.length
decreasing_by
  simp only [List.length_drop]
  omega

/-- The `for await (const chunk of nodeStream)` loop of `chunkStream`
(stream.ts lines 104-114): append each incoming chunk to the buffer, emit
full chunks, and after the stream ends yield the final partial chunk when
non-empty. -/
def chunkStreamLoop (chunkSize : Nat) : List (List Nat) → List Nat → List (List Nat)
| [], buffer => if 0 < buffer.length then [buffer] else []
| c :: rest, buffer =>
  let step := emitFull chunkSize (buffer ++ c)
  step.1 ++ chunkStreamLoop chunkSize rest step.2

/-- Function `chunkStream` (stream.ts lines 98-115), on byte lists: re-chunk an
arbitrary-granularity stream into exactly `chunkSize`-byte chunks with a
final partial chunk. -/
def chunkStream (stream : List (List Nat)) (chunkSize : Nat) : List (List Nat) :=
  chunkStreamLoop chunkSize stream []

/-- Sample metadata record (`SampleMeta` in stream.ts). -/
structure SampleMeta where
  sampleId : String
  sampleType : String
  sampleMatrix : String
  sampleCollectionDate : String
deriving DecidableEq

/-- Constant `TAR_BLOCK_SIZE` from stream.ts. -/
def TAR_BLOCK_SIZE : Nat := 512

/-- Hexadecimal digit, for the `\u00XX` escapes of `JSON.stringify`. -/
def hexDigit (n : Nat) : Char :=
  if n < 10 then Char.ofNat (48 + n) else Char.ofNat (87 + n)

/-- The escape `JSON.stringify` applies to one character of a string value:
quote and backslash are backslash-escaped, the named control escapes are
used where they exist, remaining control characters become `\u00XX`, and
every other character is passed through. -/
def jsonEscapeChar (c : Char) : List Char :=
  if c = '"' then ['\\', '"']
  else if c = '\\' then ['\\', '\\']
  else if c = '\x08' then ['\\', 'b']
  else if c = '\t' then ['\\', 't']
  else if c = '\n' then ['\\', 'n']
  else if c = '\x0c' then ['\\', 'f']
  else if c = '\r' then ['\\', 'r']
  else if c.toNat < 32 then
    ['\\', 'u', '0', '0', hexDigit (c.toNat / 16), hexDigit (c.toNat % 16)]
  else [c]

/-- Model of `JSON.stringify` on a string value: quoted and escaped. -/
def jsonStringLit (s : String) : List Char :=
  '"' :: (s.data.map jsonEscapeChar).flatten ++ ['"']

/-- Model of `JSON.stringify(meta)` for a `SampleMeta` record: the four fields in
declaration order, no spaces.  (`\x7b`/`\x7d` are the literal braces.) -/
def metaJsonChars (meta : SampleMeta) : List Char :=
  '\x7b' :: ("\"sampleId\":".data ++ jsonStringLit meta.sampleId
    ++ ",\"sampleType\":".data ++ jsonStringLit meta.sampleType
    ++ ",\"sampleMatrix\":".data ++ jsonStringLit meta.sampleMatrix
    ++ ",\"sampleCollectionDate\":".data ++ jsonStringLit meta.sampleCollectionDate)
    ++ ['\x7d']

/-- Function `metaJsonBytes` (stream.ts lines 22-25): the UTF-8 encoding
(`TextEncoder.encode`) of `JSON.stringify(meta)`. -/
def metaJsonBytes (meta : SampleMeta) : List UInt8 :=
  (String.mk (metaJsonChars meta)).toUTF8.toList

/-- A `File` as used by `tarSize`/`tarPack`: its name and its content bytes;
`size` is the content length. -/
structure FileData where
  name : String
  content : List UInt8
deriving DecidableEq

/-- The `file.size` of a modelled file. -/
def FileData.size (f : FileData) : Nat := f.content.length

/-- The rounding `Math.ceil(n / TAR_BLOCK_SIZE) * TAR_BLOCK_SIZE` of
`tarSize`, in `Nat` arithmetic. -/
def ceilBlock (n : Nat) : Nat :=
  ((n + TAR_BLOCK_SIZE - 1) / TAR_BLOCK_SIZE) * TAR_BLOCK_SIZE

/-- Function `tarSize` (stream.ts lines 35-53): one header block plus the
block-rounded content size for the `meta.json` entry and for each file, plus
the two trailing blocks. -/
def tarSize (meta : SampleMeta) (files : List FileData) : Nat :=
  TAR_BLOCK_SIZE + ceilBlock (metaJsonBytes meta).length
    + (files.map fun f => TAR_BLOCK_SIZE + ceilBlock f.size).sum
    + 2 * TAR_BLOCK_SIZE

/-- Modelled from the spec: one entry of the canonical tar block format
produced by the external `tar-stream` library's `pack()` - the serializer
itself is not part of this repository.  Per the design document each entry
contributes one 512-byte header block followed by the content zero-padded up
to a multiple of 512; the header field contents are abstracted as zero
bytes, only the block structure (and hence the byte length) is modelled. -/
def tarEntry (content : List UInt8) : List UInt8 :=
  List.replicate TAR_BLOCK_SIZE 0 ++ content
    ++ List.replicate (ceilBlock content.length - content.length) 0

/-- Modelled from the spec: the byte stream of `tarPack` (stream.ts lines
76-95) - the `meta.json` entry, one entry per file (piped from the file's
content stream), then the two zero blocks written by `pack.finalize()`. -/
def tarPack (meta : SampleMeta) (files : List FileData) : List UInt8 :=
  tarEntry (metaJsonBytes meta)
    ++ (files.map fun f => tarEntry f.content).flatten
    ++ List.replicate (2 * TAR_BLOCK_SIZE) 0

/-- The whitespace class of JS `String.prototype.trim` (restricted to the
ASCII range; none of these matter beyond not containing `"`). -/
def isJsSpace (c : Char) : Bool :=
  c == ' ' || c == '\t' || c == '\n' || c == '\r' || c == '\x0b' || c == '\x0c'

/-- Model of `tag.trim()` on a character list: strip leading and trailing
whitespace. -/
def trimChars (s : List Char) : List Char :=
  ((s.dropWhile isJsSpace).reverse.dropWhile isJsSpace).reverse

/-- Model of the replace `t.replace(/^"+|"+$/g, '')`: remove the run of leading quotes and the
run of trailing quotes. -/
def stripOuterQuotes (s : List Char) : List Char :=
  ((s.dropWhile (· == '"')).reverse.dropWhile (· == '"')).reverse

/-- Function `ensureQuoted` (mpu.ts lines 399-402): trim, and if the result already
starts and ends with `"` return it unchanged, otherwise strip any outer
quote runs and wrap in quotes.  `head? = some c` models JS
`startsWith` on the trimmed string and `getLast? = some c` models
`endsWith` (both `false` on the empty string). -/
def ensureQuoted (tag : List Char) : List Char :=
  let t := trimChars tag
  if t.head? = some '"' ∧ t.getLast? = some '"' then t
  else '"' :: (stripOuterQuotes t ++ ['"'])

/-- The `<Part>` item built for one uploaded part inside
`getMultipartUploadXML` (mpu.ts lines 405-415). -/
def partItemXML (p : UploadedPart) : List Char :=
  "<Part><PartNumber>".data ++ (toString p.partNumber).data ++ "</PartNumber><ETag>".data
    ++ ensureQuoted p.eTag.data ++ "</ETag></Part>".data

/-- Function `getMultipartUploadXML` (mpu.ts lines 405-415): XML declaration, the
namespaced `CompleteMultipartUpload` element, and the joined part items. -/
def getMultipartUploadXML (parts : List UploadedPart) : List Char :=
  "<?xml version=\"1.0\" encoding=\"UTF-8\"?>".data
    ++ "<CompleteMultipartUpload xmlns=\"http://s3.amazonaws.com/doc/2006-03-01/\">".data
    ++ (parts.map partItemXML).flatten
    ++ "</CompleteMultipartUpload>".data

/-! ### Helper lemmas -/

lemma dropWhile_eq_self_of_head {p : Char → Bool} {l : List Char}
    (h : ∀ c, l.head? = some c → p c = false) : l.dropWhile p = l := by
  cases l with
  | nil => rfl
  | cons a l => simp [List.dropWhile_cons, h a rfl]

lemma trimChars_eq_self {l : List Char} (h1 : l.head? = some '"')
    (h2 : l.getLast? = some '"') : trimChars l = l := by
  have e1 : l.dropWhile isJsSpace = l := by
    apply dropWhile_eq_self_of_head
    intro c hc
    rw [h1, Option.some.injEq] at hc
    subst hc
    rfl
  have e2 : l.reverse.dropWhile isJsSpace = l.reverse := by
    apply dropWhile_eq_self_of_head
    intro c hc
    rw [List.head?_reverse, h2, Option.some.injEq] at hc
    subst hc
    rfl
  unfold trimChars
  rw [e1, e2, List.reverse_reverse]

lemma ensureQuoted_quoted_fix {l : List Char} (h1 : l.head? = some '"')
    (h2 : l.getLast? = some '"') : ensureQuoted l = l := by
  unfold ensureQuoted
  rw [trimChars_eq_self h1 h2, if_pos ⟨h1, h2⟩]

/-! ### C10 -/

/-- C10: the entity-tag normalizer `ensureQuoted` used by the
completion-manifest builder always returns a string that begins and ends
with a double quote, and it is idempotent; hence every ETag element of the
completion XML carries a quoted tag. -/
theorem c10_ensure_quoted (tag : List Char) :
    (ensureQuoted tag).head? = some '"' ∧
    (ensureQuoted tag).getLast? = some '"' ∧
    ensureQuoted (ensureQuoted tag) = ensureQuoted tag := by
  by_cases h : (trimChars tag).head? = some '"' ∧ (trimChars tag).getLast? = some '"'
  · have he : ensureQuoted tag = trimChars tag := by
      unfold ensureQuoted
      rw [if_pos h]
    rw [he]
    exact ⟨h.1, h.2, ensureQuoted_quoted_fix h.1 h.2⟩
  · have he : ensureQuoted tag = '"' :: (stripOuterQuotes (trimChars tag) ++ ['"']) := by
      unfold ensureQuoted
      rw [if_neg h]
    rw [he]
    have hh : ('"' :: (stripOuterQuotes (trimChars tag) ++ ['"'])).head? = some '"' := rfl
    have hl : ('"' :: (stripOuterQuotes (trimChars tag) ++ ['"'])).getLast? = some '"' := by
      rw [← List.cons_append, List.getLast?_append_cons]
      rfl
    exact ⟨hh, hl, ensureQuoted_quoted_fix hh hl⟩

/-! ### C9 -/

lemma le_ceilBlock (n : Nat) : n ≤ ceilBlock n := by
  have h := Nat.div_add_mod (n + TAR_BLOCK_SIZE - 1) TAR_BLOCK_SIZE
  have h2 : (n + TAR_BLOCK_SIZE - 1) % TAR_BLOCK_SIZE < TAR_BLOCK_SIZE :=
    Nat.mod_lt _ (by decide)
  unfold ceilBlock TAR_BLOCK_SIZE at *
  omega

lemma tarEntry_length (content : List UInt8) :
    (tarEntry content).length = TAR_BLOCK_SIZE + ceilBlock content.length := by
  have h := le_ceilBlock content.length
  simp only [tarEntry, List.length_append, List.length_replicate]
  omega

/-- C9: for every metadata record and list of files, the precomputed archive
size `tarSize` equals the byte length of the packed archive stream: per
entry one block plus the block-rounded content, plus the two-block trailer
(round-trip of the size precomputation against the packer). -/
theorem c9_tar_size_roundtrip (meta : SampleMeta) (files : List FileData) :
    tarSize meta files = (tarPack meta files).length := by
  have key : ∀ fs : List FileData,
      ((fs.map fun f => tarEntry f.content).flatten).length
        = (fs.map fun f => TAR_BLOCK_SIZE + ceilBlock f.size).sum := by
    intro fs
    induction fs with
    | nil => rfl
    | cons f fs ih =>
      simp only [List.map_cons, List.flatten_cons, List.length_append, ih,
        List.sum_cons, tarEntry_length]
      rfl
  simp only [tarSize, tarPack, List.length_append, tarEntry_length, key,
    List.length_replicate]

/-! ### C4 -/

/-- C4 counterexample: an HTTP 300 response with an etag is classified as a
success by the code (`resp.status >= 200 && resp.status <= 300` is
inclusive), although 300 is neither in `[200,300)` nor retryable, so the
claimed classification would make it a fatal error. -/
theorem c4_attempt_classification_counterexample :
    uploadPartLoop 3 [.resp 300 (some "t300")] 0 = .success "t300" 1 ∧
    ¬(200 ≤ 300 ∧ 300 < 300) := by
  constructor
  · rfl
  · omega

/-- C4 (amended): per-attempt classification of the transfer loop, with the
success window being the *inclusive* interval `[200,300]`: a response in
that window succeeds exactly when the etag header is present and is a fatal
error otherwise; outside the window the attempt is retried exactly when the
status is 408, 429 or 5xx (and the budget allows), else fatal; a transport
error with no response is retried while the budget allows. -/
theorem c4_attempt_classification (numRetries status : Nat) (etag : Option String)
    (rest : List AttemptOutcome) :
    (∀ t, etag = some t → 200 ≤ status → status ≤ 300 →
      uploadPartLoop numRetries (.resp status etag :: rest) 0 = .success t 1) ∧
    (etag = none → 200 ≤ status → status ≤ 300 →
      uploadPartLoop numRetries (.resp status etag :: rest) 0 = .failure 1) ∧
    (¬(200 ≤ status ∧ status ≤ 300) → shouldRetry status = true → 1 < numRetries →
      uploadPartLoop numRetries (.resp status etag :: rest) 0
        = uploadPartLoop numRetries rest 1) ∧
    (¬(200 ≤ status ∧ status ≤ 300) → shouldRetry status = false →
      uploadPartLoop numRetries (.resp status etag :: rest) 0 = .failure 1) ∧
    (shouldRetry status = true ↔ status = 408 ∨ status = 429 ∨ 500 ≤ status) ∧
    (1 ≤ numRetries →
      uploadPartLoop numRetries (.netErr :: rest) 0 = uploadPartLoop numRetries rest 1) := by
  refine ⟨?_, ?_, ?_, ?_, ?_, ?_⟩
  · intro t ht h1 h2
    subst ht
    simp [uploadPartLoop, h1, h2]
  · intro ht h1 h2
    subst ht
    simp [uploadPartLoop, h1, h2]
  · intro h hr hn
    simp [uploadPartLoop, h, hr, hn]
  · intro h hr
    simp [uploadPartLoop, h, hr]
  · simp only [shouldRetry, Bool.or_eq_true, decide_eq_true_eq, beq_iff_eq]
    omega
  · intro h
    simp [uploadPartLoop, h]

/-- C4 witness: a 503 on the first attempt with budget 3 is retried, and the
retried attempt's 204-with-etag response succeeds. -/
theorem c4_attempt_classification_witness :
    uploadPartLoop 3 [.resp 503 none, .resp 204 (some "t")] 0
      = uploadPartLoop 3 [.resp 204 (some "t")] 1 :=
  (c4_attempt_classification 3 503 none [.resp 204 (some "t")]).2.2.1
    (by omega) (by decide) (by omega)

/-! ### C1 -/

lemma uploadPartLoop_skip503 (numRetries : Nat) :
    ∀ (k a : Nat) (rest : List AttemptOutcome), a + k < numRetries →
      uploadPartLoop numRetries (List.replicate k (.resp 503 none) ++ rest) a
        = uploadPartLoop numRetries rest (a + k) := by
  intro k
  induction k with
  | zero =>
    intro a rest _
    simp
  | succ k ih =>
    intro a rest h
    rw [List.replicate_succ, List.cons_append]
    have h1 : ¬(200 ≤ 503 ∧ 503 ≤ 300) := by omega
    have h2 : a + 1 < numRetries := by omega
    show uploadPartLoop numRetries (.resp 503 none :: _) a = _
    simp only [uploadPartLoop]
    rw [if_neg h1, if_pos ⟨h2, by decide⟩, ih (a + 1) rest (by omega)]
    congr 1
    omega

lemma uploadPartLoop_skipNet (numRetries : Nat) :
    ∀ (k a : Nat) (rest : List AttemptOutcome), a + k ≤ numRetries →
      uploadPartLoop numRetries (List.replicate k .netErr ++ rest) a
        = uploadPartLoop numRetries rest (a + k) := by
  intro k
  induction k with
  | zero =>
    intro a rest _
    simp
  | succ k ih =>
    intro a rest h
    rw [List.replicate_succ, List.cons_append]
    show uploadPartLoop numRetries (.netErr :: _) a = _
    simp only [uploadPartLoop]
    rw [if_pos (by omega : a + 1 ≤ numRetries), ih (a + 1) rest (by omega)]
    congr 1
    omega

lemma doMultipartUpload_single_ok (numRetries : Nat) (u t : String) (a : Nat)
    (script : List AttemptOutcome)
    (hrun : uploadPartLoop numRetries script 0 = .success t a) :
    doMultipartUpload numRetries [⟨1, u⟩] [script] none
      = (.ok [⟨1, t⟩], List.replicate a 1) := by
  have hcheck : checkUrls [⟨1, u⟩] = true := by
    simp [checkUrls, checkUrlsFrom]
  simp [doMultipartUpload, hcheck, doPartsLoop, signalAborted, hrun, Except.map]

lemma doMultipartUpload_single_fail (numRetries : Nat) (u : String) (a : Nat)
    (script : List AttemptOutcome)
    (hrun : uploadPartLoop numRetries script 0 = .failure a) :
    doMultipartUpload numRetries [⟨1, u⟩] [script] none
      = (.error (.partError 1 a), List.replicate a 1) := by
  have hcheck : checkUrls [⟨1, u⟩] = true := by
    simp [checkUrls, checkUrlsFrom]
  simp [doMultipartUpload, hcheck, doPartsLoop, signalAborted, hrun]

/-- C1 counterexample: with the default budget `numRetries = 3`, a part
endpoint that returns 503 exactly `numRetries` times and then 200-with-etag
does *not* succeed: the HTTP retry path only retries while
`attempt < numRetries`, so the run fails at attempt 3 without ever seeing
the 200, recording no part. -/
theorem c1_retry_budget_counterexample :
    doMultipartUpload 3 [⟨1, "u"⟩]
        [List.replicate 3 (.resp 503 none) ++ [.resp 200 (some "t")]] none
      = (.error (.partError 1 3), List.replicate 3 1) := by
  rfl

/-- C1 (amended): the retry budgets of the two retryable outcomes differ by
one.  For a retryable HTTP status the loop makes at most `numRetries - 1`
additional attempts beyond the first: 503 exactly `numRetries - 1` times then
2xx-with-etag succeeds recording exactly one part, and 503 `numRetries` times
exhausts the budget; for a transport failure with no response the loop makes
at most `numRetries` additional attempts: `numRetries` network drops then
2xx-with-etag succeeds, and `numRetries + 1` drops exhaust the budget. -/
theorem c1_retry_budget (numRetries : Nat) (h : 1 ≤ numRetries) (t u : String)
    (rest : List AttemptOutcome) :
    (doMultipartUpload numRetries [⟨1, u⟩]
        [List.replicate (numRetries - 1) (.resp 503 none) ++ [.resp 200 (some t)]] none
      = (.ok [⟨1, t⟩], List.replicate numRetries 1)) ∧
    (doMultipartUpload numRetries [⟨1, u⟩]
        [List.replicate numRetries (.resp 503 none) ++ rest] none
      = (.error (.partError 1 numRetries), List.replicate numRetries 1)) ∧
    (doMultipartUpload numRetries [⟨1, u⟩]
        [List.replicate numRetries .netErr ++ [.resp 200 (some t)]] none
      = (.ok [⟨1, t⟩], List.replicate (numRetries + 1) 1)) ∧
    (doMultipartUpload numRetries [⟨1, u⟩]
        [List.replicate (numRetries + 1) .netErr ++ rest] none
      = (.error (.partError 1 (numRetries + 1)), List.replicate (numRetries + 1) 1)) := by
  obtain ⟨m, rfl⟩ : ∃ m, numRetries = m + 1 := ⟨numRetries - 1, by omega⟩
  simp only [Nat.add_sub_cancel]
  refine ⟨?_, ?_, ?_, ?_⟩
  · apply doMultipartUpload_single_ok
    rw [uploadPartLoop_skip503 (m + 1) m 0 _ (by omega)]
    simp only [Nat.zero_add, uploadPartLoop]
    rw [if_pos (by omega : 200 ≤ 200 ∧ 200 ≤ 300)]
  · apply doMultipartUpload_single_fail
    rw [List.replicate_succ', List.append_assoc,
      uploadPartLoop_skip503 (m + 1) m 0 _ (by omega)]
    simp only [Nat.zero_add, List.singleton_append, uploadPartLoop]
    rw [if_neg (by omega : ¬(200 ≤ 503 ∧ 503 ≤ 300)),
      if_neg (by omega : ¬(m + 1 < m + 1 ∧ shouldRetry 503 = true))]
  · apply doMultipartUpload_single_ok
    rw [uploadPartLoop_skipNet (m + 1) (m + 1) 0 _ (by omega)]
    simp only [Nat.zero_add, uploadPartLoop]
    rw [if_pos (by omega : 200 ≤ 200 ∧ 200 ≤ 300)]
  · apply doMultipartUpload_single_fail
    rw [List.replicate_succ', List.append_assoc,
      uploadPartLoop_skipNet (m + 1) (m + 1) 0 _ (by omega)]
    simp only [Nat.zero_add, List.singleton_append, uploadPartLoop]
    rw [if_neg (by omega : ¬(m + 1 + 1 ≤ m + 1))]

/-- C1 witness: the amended budgets at the default `numRetries = 3` - two
503s then a 200-with-etag succeed, recording one part after three PUTs. -/
theorem c1_retry_budget_witness :
    doMultipartUpload 3 [⟨1, "u"⟩]
        [List.replicate (3 - 1) (.resp 503 none) ++ [.resp 200 (some "t")]] none
      = (.ok [⟨1, "t"⟩], List.replicate 3 1) :=
  (c1_retry_budget 3 (by omega) "t" "u" []).1

/-! ### C2 -/

/-- C2: evaluation of the code at the claimed scenario.  In a 3-part upload
whose parts would all succeed, raising the cancellation signal after part 1
(before part 2) makes the remaining attempt loops break immediately; the
transfer returns normally with the one uploaded part, `sendMultipartUpload`
skips completion because the signal is aborted, and `multiPartUpload`
resolves to the no-result outcome.  No error is ever thrown, so the catch
block of `multiPartUpload` - the only abort site - never runs: the trace
shows one PUT, zero completion calls and zero abort calls, where the claim
requires exactly one abort call. -/
theorem c2_cancellation_trace :
    multiPartUpload ⟨3, [⟨1, "u1"⟩, ⟨2, "u2"⟩, ⟨3, "u3"⟩],
        [[.resp 200 (some "e1")], [.resp 200 (some "e2")], [.resp 200 (some "e3")]],
        some 1, false, false, false⟩
      = (.ok none, ⟨[1], 0, 0⟩) := by
  rfl

/-! ### C3 -/

/-- C3 counterexample: the abort call in `multiPartUpload`'s catch block is
not itself guarded, so when the transfer fails with a part error and the
abort request then rejects, the caller observes the abort's error, not the
original part error - the original cause is masked. -/
theorem c3_abort_masks_counterexample :
    multiPartUpload ⟨3, [⟨1, "u"⟩], [[.resp 400 none]], none, false, false, true⟩
      = (.error .abortError, ⟨[1], 0, 1⟩) ∧
    (sendMultipartUpload ⟨3, [⟨1, "u"⟩], [[.resp 400 none]], none, false, false, true⟩).1
      = .error (.partError 1 1) ∧
    UploadError.abortError ≠ .partError 1 1 := by
  refine ⟨rfl, rfl, ?_⟩
  intro hcontra
  cases hcontra

/-- C3 (amended): every error raised after the session exists triggers
exactly one abort call before the coordinator re-raises; but the abort's own
failure is *not* swallowed - when the abort request fails, its error is what
propagates to the caller in place of the original one. -/
theorem c3_abort_before_rethrow (s : Script) (e : UploadError)
    (h : (sendMultipartUpload s).1 = .error e) :
    (multiPartUpload s).1 = .error (if s.abortFails then .abortError else e) ∧
    (multiPartUpload s).2.aborts = (sendMultipartUpload s).2.aborts + 1 ∧
    (multiPartUpload s).2.completes = (sendMultipartUpload s).2.completes ∧
    (multiPartUpload s).2.puts = (sendMultipartUpload s).2.puts := by
  by_cases ha : s.abortFails <;>
    simp [multiPartUpload, h, ha]

/-- C3 witness: a part that fails fatally on its first attempt, with the
abort request succeeding - the caller observes the original part error and
exactly one abort call was made. -/
theorem c3_abort_before_rethrow_witness :
    (multiPartUpload ⟨3, [⟨1, "w"⟩], [[.resp 400 none]], none, false, false, false⟩).1
      = .error (if (⟨3, [⟨1, "w"⟩], [[.resp 400 none]], none, false, false,
          false⟩ : Script).abortFails then .abortError else .partError 1 1) ∧
    (multiPartUpload ⟨3, [⟨1, "w"⟩], [[.resp 400 none]], none, false, false,
        false⟩).2.aborts
      = (sendMultipartUpload ⟨3, [⟨1, "w"⟩], [[.resp 400 none]], none, false, false,
          false⟩).2.aborts + 1 ∧
    (multiPartUpload ⟨3, [⟨1, "w"⟩], [[.resp 400 none]], none, false, false,
        false⟩).2.completes
      = (sendMultipartUpload ⟨3, [⟨1, "w"⟩], [[.resp 400 none]], none, false, false,
          false⟩).2.completes ∧
    (multiPartUpload ⟨3, [⟨1, "w"⟩], [[.resp 400 none]], none, false, false,
        false⟩).2.puts
      = (sendMultipartUpload ⟨3, [⟨1, "w"⟩], [[.resp 400 none]], none, false, false,
          false⟩).2.puts :=
  c3_abort_before_rethrow
    ⟨3, [⟨1, "w"⟩], [[.resp 400 none]], none, false, false, false⟩
    (.partError 1 1) rfl

/-! ### C5 -/

lemma intRange_succ (e : Int) (n : Nat) :
    intRange e (n + 1) = e :: intRange (e + 1) n := by
  unfold intRange
  rw [List.range_succ_eq_map, List.map_cons, List.map_map]
  congr 1
  · simp
  · apply List.map_congr_left
    intro i _
    simp only [Function.comp_apply, Nat.succ_eq_add_one]
    push_cast
    ring

lemma checkUrlsFrom_iff (urls : List PartUrl) :
    ∀ e : Int, checkUrlsFrom urls e = true
      ↔ urls.map (fun u => u.partNumber) = intRange e urls.length := by
  induction urls with
  | nil =>
    intro e
    simp [checkUrlsFrom, intRange]
  | cons u rest ih =>
    intro e
    rw [List.map_cons, List.length_cons, intRange_succ]
    simp only [checkUrlsFrom, Bool.and_eq_true, beq_iff_eq, List.cons.injEq, ih (e + 1)]

/-- C5 counterexample: a broker list whose sorted form is `[1]` while
`numParts = 2` (a missing part number) is *not* rejected before transfer:
the sanity check only compares against `1..urls.length`, so the coordinator
PUTs part 1 and only then crashes on the missing `urls[1]` - the claimed
fail-fast before any PUT does not happen. -/
theorem c5_url_validation_counterexample :
    doMultipartUpload 3 [⟨1, "u"⟩] [[.resp 200 (some "t")], [.resp 200 (some "t")]] none
      = (.error (.missingUrlError 1), [1]) ∧
    sortByPartNumber [⟨1, "u"⟩] = [⟨1, "u"⟩] ∧
    ([⟨1, "u"⟩] : List PartUrl).map (fun u => u.partNumber) ≠ intRange 1 2 := by
  refine ⟨rfl, by simp [sortByPartNumber], ?_⟩
  intro hcontra
  simp [intRange, List.range_succ] at hcontra

/-- C5 (amended): the pre-transfer sanity check passes exactly when the
part-number list is the sequence `1..urls.length` - so duplicates, gaps,
and non-positive numbers *within the list* are fatal before any PUT - but
the length is never compared against `numParts`: a too-short list fails only
after the existing parts are PUT, and an over-long consistent list passes
validation. -/
theorem c5_url_validation (urls : List PartUrl) (numRetries : Nat)
    (scripts : List (List AttemptOutcome)) (signalFrom : Option Nat) :
    (checkUrls urls = true
      ↔ urls.map (fun u => u.partNumber) = intRange 1 urls.length) ∧
    (checkUrls urls = false →
      doMultipartUpload numRetries urls scripts signalFrom
        = (.error .urlCheckError, [])) := by
  constructor
  · exact checkUrlsFrom_iff urls 1
  · intro h
    simp [doMultipartUpload, h]

/-- C5 witness: a list starting at part number 2 fails the check and the
transfer loop is never entered (no PUT in the trace). -/
theorem c5_url_validation_witness :
    doMultipartUpload 3 [⟨2, "u"⟩] [[.resp 200 (some "t")]] none
      = (.error .urlCheckError, []) :=
  (c5_url_validation [⟨2, "u"⟩] 3 [[.resp 200 (some "t")]] none).2 (by decide)

/-! ### C6 / C7: progress accounting -/

lemma chain_append_getLastD {l₂ : List Nat} :
    ∀ {l₁ : List Nat} {b : Nat},
      List.Chain' (· ≤ ·) (b :: l₁) →
      List.Chain' (· ≤ ·) (l₁.getLastD b :: l₂) →
      List.Chain' (· ≤ ·) (b :: (l₁ ++ l₂)) ∧
        (l₁ ++ l₂).getLastD b = l₂.getLastD (l₁.getLastD b) := by
  intro l₁
  induction l₁ with
  | nil =>
    intro b _ h2
    exact ⟨h2, rfl⟩
  | cons a l₁ ih =>
    intro b h1 h2
    rw [List.chain'_cons] at h1
    rw [List.getLastD_cons] at h2
    obtain ⟨hc, hl⟩ := ih h1.2 h2
    refine ⟨List.chain'_cons.2 ⟨h1.1, hc⟩, ?_⟩
    rw [List.cons_append, List.getLastD_cons, List.getLastD_cons, hl]

lemma chain_le_getLastD_self :
    ∀ (l : List Nat) (a : Nat), List.Chain' (· ≤ ·) (a :: l) → a ≤ l.getLastD a := by
  intro l
  induction l with
  | nil => intro a _; exact le_refl a
  | cons c l ih =>
    intro a h
    rw [List.chain'_cons] at h
    rw [List.getLastD_cons]
    exact le_trans h.1 (ih c h.2)

lemma chain_le_getLastD :
    ∀ (l : List Nat) (b : Nat), List.Chain' (· ≤ ·) (b :: l) →
      ∀ x ∈ l, x ≤ l.getLastD b := by
  intro l
  induction l with
  | nil => intro b _ x hx; cases hx
  | cons a l ih =>
    intro b h x hx
    rw [List.chain'_cons] at h
    rw [List.getLastD_cons]
    rcases List.mem_cons.1 hx with hx | hx
    · subst hx
      exact chain_le_getLastD_self l x h.2
    · exact ih a h.2 x hx

lemma onUploadProgress_pos {st : ProgressState} {l : Nat} (hl : st.perLoaded < l) :
    onUploadProgress st l
      = (⟨l, st.bytesSent + (l - st.perLoaded)⟩, some (st.bytesSent + (l - st.perLoaded))) := by
  unfold onUploadProgress
  rw [if_pos hl]
  dsimp only
  rw [Nat.add_sub_cancel' (Nat.le_of_lt hl)]

lemma onUploadProgress_neg {st : ProgressState} {l : Nat} (hl : ¬st.perLoaded < l) :
    onUploadProgress st l = (st, none) := by
  unfold onUploadProgress
  rw [if_neg hl]

lemma runAttempt_cons (st : ProgressState) (l : Nat) (rest : List Nat) :
    runAttempt st (l :: rest)
      = ((runAttempt (onUploadProgress st l).1 rest).1,
        (onUploadProgress st l).2.toList ++ (runAttempt (onUploadProgress st l).1 rest).2) := rfl

lemma runAttempt_spec (ls : List Nat) : ∀ st : ProgressState,
    st.perLoaded ≤ (runAttempt st ls).1.perLoaded ∧
    (runAttempt st ls).1.bytesSent + st.perLoaded
      = st.bytesSent + (runAttempt st ls).1.perLoaded ∧
    List.Chain' (· ≤ ·) (st.bytesSent :: (runAttempt st ls).2) ∧
    (runAttempt st ls).2.getLastD st.bytesSent = (runAttempt st ls).1.bytesSent ∧
    (∀ c, st.perLoaded ≤ c → (∀ l ∈ ls, l ≤ c) → (runAttempt st ls).1.perLoaded ≤ c) := by
  induction ls with
  | nil =>
    intro st
    refine ⟨le_refl _, rfl, List.chain'_singleton _, rfl, ?_⟩
    intro c hc _
    exact hc
  | cons l rest ih =>
    intro st
    by_cases hl : st.perLoaded < l
    · obtain ⟨ih1, ih2, ih3, ih4, ih5⟩ := ih ⟨l, st.bytesSent + (l - st.perLoaded)⟩
      rw [runAttempt_cons, onUploadProgress_pos hl]
      dsimp only [Option.toList] at ih1 ih2 ih3 ih4 ih5 ⊢
      rw [List.singleton_append]
      refine ⟨?_, ?_, ?_, ?_, ?_⟩
      · exact le_trans (Nat.le_of_lt hl) ih1
      · omega
      · exact List.chain'_cons.2 ⟨by omega, ih3⟩
      · rw [List.getLastD_cons]
        exact ih4
      · intro c hc hb
        apply ih5 c
        · have := hb l (List.mem_cons_self l rest)
          omega
        · intro x hx
          exact hb x (List.mem_cons_of_mem l hx)
    · obtain ⟨ih1, ih2, ih3, ih4, ih5⟩ := ih st
      rw [runAttempt_cons, onUploadProgress_neg hl]
      dsimp only [Option.toList] at ih1 ih2 ih3 ih4 ih5 ⊢
      rw [List.nil_append]
      refine ⟨ih1, ih2, ih3, ih4, ?_⟩
      intro c hc hb
      exact ih5 c hc fun x hx => hb x (List.mem_cons_of_mem l hx)

lemma runPartAttempts_spec (attempts : List (List Nat)) : ∀ st : ProgressState,
    st.perLoaded ≤ (runPartAttempts st attempts).1.perLoaded ∧
    (runPartAttempts st attempts).1.bytesSent + st.perLoaded
      = st.bytesSent + (runPartAttempts st attempts).1.perLoaded ∧
    List.Chain' (· ≤ ·) (st.bytesSent :: (runPartAttempts st attempts).2) ∧
    (runPartAttempts st attempts).2.getLastD st.bytesSent
      = (runPartAttempts st attempts).1.bytesSent ∧
    (∀ c, st.perLoaded ≤ c → (∀ a ∈ attempts, ∀ l ∈ a, l ≤ c) →
      (runPartAttempts st attempts).1.perLoaded ≤ c) := by
  induction attempts with
  | nil =>
    intro st
    refine ⟨le_refl _, rfl, List.chain'_singleton _, rfl, ?_⟩
    intro c hc _
    exact hc
  | cons a rest ih =>
    intro st
    obtain ⟨s1, s2, s3, s4, s5⟩ := runAttempt_spec a st
    obtain ⟨n1, n2, n3, n4, n5⟩ := ih (runAttempt st a).1
    have hrun : runPartAttempts st (a :: rest)
        = ((runPartAttempts (runAttempt st a).1 rest).1,
          (runAttempt st a).2 ++ (runPartAttempts (runAttempt st a).1 rest).2) := rfl
    rw [hrun]
    dsimp only
    have hglue := chain_append_getLastD s3 (by rw [s4]; exact n3)
    refine ⟨le_trans s1 n1, by omega, hglue.1, ?_, ?_⟩
    · rw [hglue.2, s4, n4]
    · intro c hc hb
      apply n5 c
      · exact s5 c hc fun l hl => hb a (List.mem_cons_self a rest) l hl
      · intro x hx l hl
        exact hb x (List.mem_cons_of_mem a hx) l hl

lemma runPart_spec (b : Nat) (attempts : List (List Nat)) (size : Nat)
    (hb : ∀ a ∈ attempts, ∀ l ∈ a, l ≤ size) :
    b ≤ (runPart b attempts).1 ∧
    (runPart b attempts).1 ≤ b + size ∧
    List.Chain' (· ≤ ·) (b :: (runPart b attempts).2) ∧
    (runPart b attempts).2.getLastD b = (runPart b attempts).1 := by
  obtain ⟨h1, h2, h3, h4, h5⟩ := runPartAttempts_spec attempts ⟨0, b⟩
  have hcap : (runPartAttempts ⟨0, b⟩ attempts).1.perLoaded ≤ size :=
    h5 size (Nat.zero_le _) hb
  dsimp only [runPart]
  dsimp only at h1 h2 h3 h4
  exact ⟨by omega, by omega, h3, h4⟩

lemma runSession_spec (parts : List PartRun) : ∀ b : Nat,
    (∀ p ∈ parts, ∀ a ∈ p.attempts, ∀ l ∈ a, l ≤ p.size) →
    b ≤ (runSession b parts).1 ∧
    (runSession b parts).1 ≤ b + (parts.map PartRun.size).sum ∧
    List.Chain' (· ≤ ·) (b :: (runSession b parts).2) ∧
    (runSession b parts).2.getLastD b = (runSession b parts).1 := by
  induction parts with
  | nil =>
    intro b _
    exact ⟨le_refl _, by simp [runSession], List.chain'_singleton _, rfl⟩
  | cons p rest ih =>
    intro b hb
    obtain ⟨s1, s2, s3, s4⟩ := runPart_spec b p.attempts p.size
      (hb p (List.mem_cons_self p rest))
    obtain ⟨n1, n2, n3, n4⟩ := ih (runPart b p.attempts).1
      (fun q hq => hb q (List.mem_cons_of_mem p hq))
    have hrun : runSession b (p :: rest)
        = ((runSession (runPart b p.attempts).1 rest).1,
          (runPart b p.attempts).2 ++ (runSession (runPart b p.attempts).1 rest).2) := rfl
    rw [hrun]
    dsimp only
    have hglue := chain_append_getLastD s3 (by rw [s4]; exact n3)
    refine ⟨le_trans s1 n1, ?_, hglue.1, ?_⟩
    · simp only [List.map_cons, List.sum_cons]
      omega
    · rw [hglue.2, s4, n4]

/-- C6: across every sequence of part attempts - including retried attempts
that resend a part from byte 0 - the cumulative `bytesSent` values passed to
the progress sink are non-decreasing, and (assuming the transport counter of
each attempt never exceeds the part's size, and that the part sizes sum to
at most `totalBytes`) no report and no final total ever exceeds
`totalBytes`. -/
theorem c6_progress_monotone_bounded (parts : List PartRun) (totalBytes : Nat)
    (hload : ∀ p ∈ parts, ∀ a ∈ p.attempts, ∀ l ∈ a, l ≤ p.size)
    (htotal : (parts.map PartRun.size).sum ≤ totalBytes) :
    List.Chain' (· ≤ ·) (runSession 0 parts).2 ∧
    (∀ r ∈ (runSession 0 parts).2, r ≤ totalBytes) ∧
    (runSession 0 parts).1 ≤ totalBytes := by
  obtain ⟨h1, h2, h3, h4⟩ := runSession_spec parts 0 hload
  refine ⟨h3.tail, ?_, by omega⟩
  intro r hr
  have := chain_le_getLastD (runSession 0 parts).2 0 h3 r hr
  rw [h4] at this
  omega

/-- C6 witness: a two-part session where part 1 is retried (its second
attempt resends from byte 0) - the reports are non-decreasing and bounded by
the total. -/
theorem c6_progress_monotone_bounded_witness :
    List.Chain' (· ≤ ·) (runSession 0 [⟨10, [[5], [3, 7]]⟩, ⟨4, [[4]]⟩]).2 ∧
    (runSession 0 [⟨10, [[5], [3, 7]]⟩, ⟨4, [[4]]⟩]).1 ≤ 14 :=
  ⟨(c6_progress_monotone_bounded [⟨10, [[5], [3, 7]]⟩, ⟨4, [[4]]⟩] 14
      (by decide) (by decide)).1,
    (c6_progress_monotone_bounded [⟨10, [[5], [3, 7]]⟩, ⟨4, [[4]]⟩] 14
      (by decide) (by decide)).2.2⟩

/-- C7 counterexample: `perLoaded` is *not* reset at the start of every
attempt: for a part whose first attempt reported `loaded = 5`, the second
attempt starts with `perLoaded = 5`, not 0, because the counter is declared
once per part, outside the attempt loop. -/
theorem c7_perloaded_counterexample :
    attemptStarts ⟨0, 0⟩ [[5], [5]] = [0, 5] ∧ (5 : Nat) ≠ 0 := by
  exact ⟨rfl, by omega⟩

/-- C7 (amended): `perLoaded` is reset to 0 at the start of every *part*
(so the first attempt of a part starts at 0) and then persists,
non-decreasing, across the subsequent attempts of that same part. -/
theorem c7_perloaded_per_part (b : Nat) (attempts : List (List Nat))
    (h : attempts ≠ []) :
    (attemptStarts ⟨0, b⟩ attempts).head? = some 0 ∧
    List.Chain' (· ≤ ·) (attemptStarts ⟨0, b⟩ attempts) := by
  have key : ∀ (ats : List (List Nat)) (st : ProgressState),
      List.Chain' (· ≤ ·) (attemptStarts st ats) := by
    intro ats
    induction ats with
    | nil => intro st; exact List.chain'_nil
    | cons a rest ih =>
      intro st
      apply List.chain'_cons'.2
      refine ⟨?_, ih (runAttempt st a).1⟩
      intro y hy
      cases rest with
      | nil => cases hy
      | cons a2 rest2 =>
        rw [Option.mem_def] at hy
        simp only [attemptStarts, List.head?_cons, Option.some.injEq] at hy
        subst hy
        exact (runAttempt_spec a st).1
  constructor
  · cases attempts with
    | nil => exact absurd rfl h
    | cons a rest => rfl
  · exact key attempts ⟨0, b⟩

/-- C7 witness: a part with two attempts - the observed `perLoaded` values at
the attempt starts begin at 0 and are non-decreasing. -/
theorem c7_perloaded_per_part_witness :
    (attemptStarts ⟨0, 0⟩ [[5], [3]]).head? = some 0 ∧
    List.Chain' (· ≤ ·) (attemptStarts ⟨0, 0⟩ [[5], [3]]) :=
  c7_perloaded_per_part 0 [[5], [3]] (by simp)

/-! ### C8: chunk sources -/

lemma ceil_mul_lower (fs cs : Nat) (hcs : 0 < cs) : fs ≤ ((fs + cs - 1) / cs) * cs := by
  have hd := Nat.div_add_mod (fs + cs - 1) cs
  have hm : (fs + cs - 1) % cs < cs := Nat.mod_lt _ hcs
  have hc : cs * ((fs + cs - 1) / cs) = ((fs + cs - 1) / cs) * cs := Nat.mul_comm _ _
  omega

lemma chunk_index_bound (fs cs : Nat) (hfs : 0 < fs) (hcs : 0 < cs) {i : Nat}
    (h : i < (fs + cs - 1) / cs) : i * cs < fs := by
  have hd := Nat.div_add_mod (fs + cs - 1) cs
  have hm : (fs + cs - 1) % cs < cs := Nat.mod_lt _ hcs
  have hc : cs * ((fs + cs - 1) / cs) = ((fs + cs - 1) / cs) * cs := Nat.mul_comm _ _
  have h2 : (i + 1) * cs ≤ ((fs + cs - 1) / cs) * cs := Nat.mul_le_mul_right cs h
  rw [Nat.succ_mul] at h2
  omega

lemma chunk_total_pos (fs cs : Nat) (hfs : 0 < fs) (hcs : 0 < cs) :
    0 < (fs + cs - 1) / cs :=
  (Nat.le_div_iff_mul_le hcs).2 (by omega)

lemma iterateFileChunks_length (fs cs : Nat) (hfs : 0 < fs) :
    (iterateFileChunks fs cs).length = (fs + cs - 1) / cs := by
  unfold iterateFileChunks
  rw [if_neg (by omega)]
  simp

lemma iterateFileChunks_get (fs cs : Nat) (hfs : 0 < fs) (i : Nat)
    (h : i < (iterateFileChunks fs cs).length) :
    (iterateFileChunks fs cs).get ⟨i, h⟩
      = ⟨i, i * cs, min (i * cs + cs) fs, min (i * cs + cs) fs == fs⟩ := by
  have he : iterateFileChunks fs cs
      = (List.range ((fs + cs - 1) / cs)).map (fun index =>
          ⟨index, index * cs, min (index * cs + cs) fs, min (index * cs + cs) fs == fs⟩) := by
    unfold iterateFileChunks
    rw [if_neg (by omega)]
  rw [List.get_of_eq he]
  simp [List.get_eq_getElem]

lemma chunk_stop_last (fs cs : Nat) (hfs : 0 < fs) (hcs : 0 < cs) :
    min (((fs + cs - 1) / cs - 1) * cs + cs) fs = fs := by
  have htot := chunk_total_pos fs cs hfs hcs
  have hle := ceil_mul_lower fs cs hcs
  have he : ((fs + cs - 1) / cs - 1) * cs + cs = ((fs + cs - 1) / cs) * cs := by
    conv_rhs => rw [← Nat.succ_pred_eq_of_pos htot]
    rw [Nat.succ_mul]
    rfl
  rw [he]
  exact Nat.min_eq_right hle

lemma iterateFileChunks_spec (fs cs : Nat) (hfs : 0 < fs) (hcs : 0 < cs) :
    (iterateFileChunks fs cs).length = (fs + cs - 1) / cs ∧
    0 < (iterateFileChunks fs cs).length ∧
    (∀ h : 0 < (iterateFileChunks fs cs).length,
      ((iterateFileChunks fs cs).get ⟨0, h⟩).start = 0) ∧
    (∀ h : 0 < (iterateFileChunks fs cs).length,
      ((iterateFileChunks fs cs).get
        ⟨(iterateFileChunks fs cs).length - 1, by omega⟩).stop = fs) ∧
    (∀ i (h : i + 1 < (iterateFileChunks fs cs).length),
      ((iterateFileChunks fs cs).get ⟨i, Nat.lt_of_succ_lt h⟩).stop
        = ((iterateFileChunks fs cs).get ⟨i + 1, h⟩).start) ∧
    (∀ c ∈ iterateFileChunks fs cs, c.start < c.stop) ∧
    (∀ i (h : i + 1 < (iterateFileChunks fs cs).length),
      ((iterateFileChunks fs cs).get ⟨i, Nat.lt_of_succ_lt h⟩).stop
        - ((iterateFileChunks fs cs).get ⟨i, Nat.lt_of_succ_lt h⟩).start = cs) ∧
    (∀ i (h : i < (iterateFileChunks fs cs).length),
      (((iterateFileChunks fs cs).get ⟨i, h⟩).isLast = true
        ↔ i + 1 = (iterateFileChunks fs cs).length)) := by
  have hlen := iterateFileChunks_length fs cs hfs
  have htot := chunk_total_pos fs cs hfs hcs
  have hmid : ∀ i : Nat, i + 1 < (fs + cs - 1) / cs → min (i * cs + cs) fs = i * cs + cs := by
    intro i hi
    have := chunk_index_bound fs cs hfs hcs hi
    rw [Nat.succ_mul] at this
    exact Nat.min_eq_left (Nat.le_of_lt this)
  refine ⟨hlen, by omega, ?_, ?_, ?_, ?_, ?_, ?_⟩
  · intro h
    rw [iterateFileChunks_get fs cs hfs 0 h]
    simp
  · intro h
    rw [iterateFileChunks_get fs cs hfs _ (by omega)]
    dsimp only
    rw [hlen]
    exact chunk_stop_last fs cs hfs hcs
  · intro i h
    rw [iterateFileChunks_get fs cs hfs i (Nat.lt_of_succ_lt h),
      iterateFileChunks_get fs cs hfs (i + 1) h]
    dsimp only
    rw [hmid i (by omega), Nat.succ_mul]
  · intro c hc
    rw [List.mem_iff_get] at hc
    obtain ⟨⟨i, hi⟩, rfl⟩ := hc
    rw [iterateFileChunks_get fs cs hfs i hi]
    dsimp only
    have hia : i * cs < fs := chunk_index_bound fs cs hfs hcs (by omega)
    exact Nat.lt_min.2 ⟨by omega, hia⟩
  · intro i h
    rw [iterateFileChunks_get fs cs hfs i (Nat.lt_of_succ_lt h)]
    dsimp only
    rw [hmid i (by omega)]
    omega
  · intro i h
    rw [iterateFileChunks_get fs cs hfs i h]
    dsimp only
    rw [beq_iff_eq]
    constructor
    · intro hstop
      by_contra hne
      have hi1 : i + 1 < (fs + cs - 1) / cs := by omega
      rw [hmid i hi1] at hstop
      have : i * cs < fs := chunk_index_bound fs cs hfs hcs (by omega)
      have h2 : (i + 1) * cs < fs := chunk_index_bound fs cs hfs hcs hi1
      rw [Nat.succ_mul] at h2
      omega
    · intro hi
      have : i = (fs + cs - 1) / cs - 1 := by omega
      subst this
      exact chunk_stop_last fs cs hfs hcs

lemma emitFull_spec (cs : Nat) (hcs : 0 < cs) : ∀ (n : Nat) (b : List Nat),
    b.length ≤ n →
    (emitFull cs b).1.flatten ++ (emitFull cs b).2 = b ∧
    (∀ x ∈ (emitFull cs b).1, x.length = cs) ∧
    (emitFull cs b).2.length < cs := by
  intro n
  induction n with
  | zero =>
    intro b hb
    have hnil : b = [] := List.length_eq_zero.1 (Nat.le_zero.1 hb)
    subst hnil
    rw [emitFull, dif_neg (by simp; omega)]
    refine ⟨rfl, ?_, hcs⟩
    intro x hx
    cases hx
  | succ n ih =>
    intro b hb
    by_cases hcond : cs ≤ b.length
    · have hrec := ih (b.drop cs) (by simp only [List.length_drop]; omega)
      rw [emitFull, dif_pos ⟨hcs, hcond⟩]
      dsimp only
      refine ⟨?_, ?_, hrec.2.2⟩
      · rw [List.flatten_cons, List.append_assoc, hrec.1, List.take_append_drop]
      · intro x hx
        rcases List.mem_cons.1 hx with hx | hx
        · subst hx
          rw [List.length_take]
          omega
        · exact hrec.2.1 x hx
    · rw [emitFull, dif_neg (by omega)]
      refine ⟨rfl, ?_, by dsimp only; omega⟩
      intro x hx
      cases hx

lemma flatten_length_const {out : List (List Nat)} {cs : Nat}
    (h : ∀ x ∈ out, x.length = cs) : out.flatten.length = out.length * cs := by
  induction out with
  | nil => simp
  | cons a rest ih =>
    rw [List.flatten_cons, List.length_append, List.length_cons, Nat.succ_mul,
      h a (List.mem_cons_self a rest), ih fun x hx => h x (List.mem_cons_of_mem a hx)]
    omega

lemma get_append_front {P : List Nat → Prop} {l₁ l₂ : List (List Nat)}
    (h1 : ∀ c ∈ l₁, P c)
    (h2 : ∀ i (h : i + 1 < l₂.length), P (l₂.get ⟨i, Nat.lt_of_succ_lt h⟩)) :
    ∀ i (h : i + 1 < (l₁ ++ l₂).length), P ((l₁ ++ l₂).get ⟨i, Nat.lt_of_succ_lt h⟩) := by
  intro i h
  rw [List.length_append] at h
  by_cases hi : i < l₁.length
  · rw [List.get_eq_getElem, List.getElem_append_left hi]
    exact h1 _ (List.getElem_mem hi)
  · have hge : l₁.length ≤ i := Nat.le_of_not_lt hi
    rw [List.get_eq_getElem, List.getElem_append_right hge]
    have := h2 (i - l₁.length) (by omega)
    rw [List.get_eq_getElem] at this
    exact this

lemma chunkStreamLoop_spec (cs : Nat) (hcs : 0 < cs) :
    ∀ (input : List (List Nat)) (buffer : List Nat), buffer.length < cs →
      (chunkStreamLoop cs input buffer).flatten = buffer ++ input.flatten ∧
      (∀ i (h : i + 1 < (chunkStreamLoop cs input buffer).length),
        ((chunkStreamLoop cs input buffer).get ⟨i, Nat.lt_of_succ_lt h⟩).length = cs) ∧
      (∀ c ∈ chunkStreamLoop cs input buffer, c ≠ []) ∧
      (chunkStreamLoop cs input buffer).length
        = (buffer.length + input.flatten.length + cs - 1) / cs := by
  intro input
  induction input with
  | nil =>
    intro buffer hb
    by_cases hlen : 0 < buffer.length
    · have hloop : chunkStreamLoop cs [] buffer = [buffer] := by
        unfold chunkStreamLoop
        rw [if_pos hlen]
      rw [hloop]
      refine ⟨by simp, ?_, ?_, ?_⟩
      · intro i h
        simp only [List.length_cons, List.length_nil] at h
        omega
      · intro c hc
        rw [List.mem_singleton] at hc
        subst hc
        intro hnil
        rw [hnil] at hlen
        exact absurd hlen (by simp)
      · have h1 : buffer.length + ([] : List (List Nat)).flatten.length + cs - 1
            = buffer.length - 1 + cs := by
          simp only [List.flatten_nil, List.length_nil]
          omega
        rw [h1, Nat.add_div_right _ hcs, Nat.div_eq_of_lt (by omega)]
        simp
    · have hloop : chunkStreamLoop cs [] buffer = [] := by
        unfold chunkStreamLoop
        rw [if_neg hlen]
      have hbuf : buffer = [] := List.length_eq_zero.1 (by omega)
      subst hbuf
      rw [hloop]
      refine ⟨by simp, ?_, ?_, ?_⟩
      · intro i h
        simp at h
      · intro c hc
        cases hc
      · simp only [List.length_nil, List.flatten_nil, Nat.zero_add]
        exact (Nat.div_eq_of_lt (by omega)).symm
  | cons c rest ih =>
    intro buffer hb
    obtain ⟨e1, e2, e3⟩ := emitFull_spec cs hcs (buffer ++ c).length (buffer ++ c) (le_refl _)
    obtain ⟨r1, r2, r3, r4⟩ := ih (emitFull cs (buffer ++ c)).2 e3
    have hloop : chunkStreamLoop cs (c :: rest) buffer
        = (emitFull cs (buffer ++ c)).1 ++ chunkStreamLoop cs rest (emitFull cs (buffer ++ c)).2 := rfl
    rw [hloop]
    have hflat : ((emitFull cs (buffer ++ c)).1
        ++ chunkStreamLoop cs rest (emitFull cs (buffer ++ c)).2).flatten
        = buffer ++ (c :: rest).flatten := by
      rw [List.flatten_append, r1, ← List.append_assoc, e1, List.flatten_cons,
        List.append_assoc]
    refine ⟨hflat, ?_, ?_, ?_⟩
    · exact get_append_front (fun x hx => e2 x hx) r2
    · intro x hx
      rcases List.mem_append.1 hx with hx | hx
      · have := e2 x hx
        intro hnil
        rw [hnil] at this
        simp at this
        omega
      · exact r3 x hx
    · rw [List.length_append, r4]
      have hcount : (emitFull cs (buffer ++ c)).1.length * cs
          + (emitFull cs (buffer ++ c)).2.length = buffer.length + c.length := by
        have := congrArg List.length e1
        rw [List.length_append, List.length_append,
          flatten_length_const e2] at this
        exact this
      have harr : (emitFull cs (buffer ++ c)).2.length + rest.flatten.length + cs - 1
            + (emitFull cs (buffer ++ c)).1.length * cs
          = buffer.length + (c :: rest).flatten.length + cs - 1 := by
        rw [List.flatten_cons, List.length_append]
        omega
      rw [← harr, Nat.add_mul_div_right _ _ hcs]
      omega

/-- C8: the two chunk producers.  (1) For every positive `fileSize` and
`chunkSize`, `iterateFileChunks` yields exactly `ceil(fileSize/chunkSize)`
ranges that start at 0, are contiguous and non-empty (hence non-overlapping
with union exactly `[0, fileSize)`), end at `fileSize`, all but the last of
length exactly `chunkSize`, with `isLast` true exactly on the final chunk.
(2) `chunkStream` re-chunks any stream into `ceil(total/chunkSize)` chunks
whose concatenation is exactly the input, every chunk but the last of length
exactly `chunkSize` and none empty. -/
theorem c8_chunk_cover :
    (∀ fs cs : Nat, 0 < fs → 0 < cs →
      (iterateFileChunks fs cs).length = (fs + cs - 1) / cs ∧
      0 < (iterateFileChunks fs cs).length ∧
      (∀ h : 0 < (iterateFileChunks fs cs).length,
        ((iterateFileChunks fs cs).get ⟨0, h⟩).start = 0) ∧
      (∀ h : 0 < (iterateFileChunks fs cs).length,
        ((iterateFileChunks fs cs).get
          ⟨(iterateFileChunks fs cs).length - 1, by omega⟩).stop = fs) ∧
      (∀ i (h : i + 1 < (iterateFileChunks fs cs).length),
        ((iterateFileChunks fs cs).get ⟨i, Nat.lt_of_succ_lt h⟩).stop
          = ((iterateFileChunks fs cs).get ⟨i + 1, h⟩).start) ∧
      (∀ c ∈ iterateFileChunks fs cs, c.start < c.stop) ∧
      (∀ i (h : i + 1 < (iterateFileChunks fs cs).length),
        ((iterateFileChunks fs cs).get ⟨i, Nat.lt_of_succ_lt h⟩).stop
          - ((iterateFileChunks fs cs).get ⟨i, Nat.lt_of_succ_lt h⟩).start = cs) ∧
      (∀ i (h : i < (iterateFileChunks fs cs).length),
        (((iterateFileChunks fs cs).get ⟨i, h⟩).isLast = true
          ↔ i + 1 = (iterateFileChunks fs cs).length))) ∧
    (∀ (input : List (List Nat)) (cs : Nat), 0 < cs →
      (chunkStream input cs).flatten = input.flatten ∧
      (∀ i (h : i + 1 < (chunkStream input cs).length),
        ((chunkStream input cs).get ⟨i, Nat.lt_of_succ_lt h⟩).length = cs) ∧
      (∀ c ∈ chunkStream input cs, c ≠ []) ∧
      (chunkStream input cs).length = (input.flatten.length + cs - 1) / cs) := by
  constructor
  · exact iterateFileChunks_spec
  · intro input cs hcs
    obtain ⟨h1, h2, h3, h4⟩ := chunkStreamLoop_spec cs hcs input [] (by simpa using hcs)
    unfold chunkStream
    refine ⟨by rw [h1]; rfl, h2, h3, by rw [h4]; simp⟩

/-- C8 witness: evaluation at `fileSize = 5`, `chunkSize = 2` and at the
stream `[[1,2,3],[4]]` with `chunkSize = 2`. -/
theorem c8_chunk_cover_witness :
    (iterateFileChunks 5 2).length = (5 + 2 - 1) / 2 ∧
    (chunkStream [[1, 2, 3], [4]] 2).flatten = ([[1, 2, 3], [4]] : List (List Nat)).flatten :=
  ⟨(c8_chunk_cover.1 5 2 (by omega) (by omega)).1,
    (c8_chunk_cover.2 [[1, 2, 3], [4]] 2 (by omega)).1⟩

end CapeFrontend
